import Mathlib

/-!
Shallow embedding of `src/main.py` (trading-pnl): a FIFO realized-PNL
calculator over batches of trade operations, grouped by underlying.

Modelling choices:
* Python `int` quantities are modelled as `Int` (arbitrary precision, may be
  compared and subtracted exactly as in the source).
* Python `Decimal` prices are modelled as `ℚ`: both are exact arithmetic;
  every operation the source performs on prices (addition, subtraction,
  multiplication by an integer) is exact in both.
* The constructor's `defaultdict(list)` keyed by underlying is modelled as an
  insertion-ordered association list (`List (String × List TradeOperation)`),
  matching Python dict semantics: keys appear in first-occurrence order and
  appends go to the entry of the matching key.
-/

namespace TradingPnl

/-- Mirrors `class Direction(Enum)` in `src/main.py`. -/
inductive Direction where
  | BUY
  | SELL
deriving DecidableEq

/-- Mirrors the `@dataclass TradeOperation` in `src/main.py`. -/
structure TradeOperation where
  direction : Direction
  quantity : Int
  price : ℚ
  underlying : String
deriving DecidableEq

/-- Mirrors `TradingOperations.__price_of_first_n_goods`: walk `trades` in
order; while a trade's quantity is at most the remaining target, consume it
whole (accumulating `quantity * price`); otherwise accumulate
`remaining * price` and stop (the Python `break`). -/
def price_of_first_n_goods : Int → List TradeOperation → ℚ
  | _, [] => 0
  | quantity, t :: ts =>
    if t.quantity ≤ quantity then
      (t.quantity : ℚ) * t.price + price_of_first_n_goods (quantity - t.quantity) ts
    else
      (quantity : ℚ) * t.price

/-- Mirrors `TradingOperations.__underlying_pnl`. -/
def underlying_pnl (trades : List TradeOperation) : ℚ :=
  let buy_trades := trades.filter (fun t => t.direction = Direction.BUY)
  let sell_trades := trades.filter (fun t => t.direction = Direction.SELL)
  if buy_trades = [] ∨ sell_trades = [] then 0
  else
    let buy_quantity := (buy_trades.map (fun t => t.quantity)).sum
    let sell_quantity := (sell_trades.map (fun t => t.quantity)).sum
    let quantity := min buy_quantity sell_quantity
    let total_buy_prices := price_of_first_n_goods quantity buy_trades
    let total_sell_prices := price_of_first_n_goods quantity sell_trades
    total_sell_prices - total_buy_prices

/-- One step of the constructor loop of `TradingOperations.__init__`:
`self.trades_by_underlying[underlying].append(TradeOperation(**d))` on a
`defaultdict(list)` — append to the existing entry if the key is present,
otherwise create a fresh entry at the end (Python dicts keep keys in
insertion order). -/
def addTrade (m : List (String × List TradeOperation)) (t : TradeOperation) :
    List (String × List TradeOperation) :=
  if t.underlying ∈ m.map Prod.fst then
    m.map (fun p => if p.1 = t.underlying then (p.1, p.2 ++ [t]) else p)
  else
    m ++ [(t.underlying, [t])]

/-- Mirrors `TradingOperations.__init__`: fold the input batch into the
per-underlying grouping. -/
def trades_by_underlying (trades_data : List TradeOperation) :
    List (String × List TradeOperation) :=
  trades_data.foldl addTrade []

/-- Mirrors the `pnl` property: accumulate `__underlying_pnl` over the
grouped values in key insertion order. -/
def pnl (trades_data : List TradeOperation) : ℚ :=
  (trades_by_underlying trades_data).foldl (fun result p => result + underlying_pnl p.2) 0

/-- Reference definition, following the spec's words for "first-N
consumption" as a per-unit account: consuming the first `n` units from
`trades` in original order takes `min n quantity` units from each trade in
turn (at that trade's price), decrementing the remaining target by the
amount taken.  This is the spec-side yardstick against which the source's
`price_of_first_n_goods` is compared. -/
def first_n_units_cost : Int → List TradeOperation → ℚ
  | _, [] => 0
  | n, t :: ts =>
    ((min n t.quantity : Int) : ℚ) * t.price +
      first_n_units_cost (n - min n t.quantity) ts

/-- Reference definition, following the spec's words for the greedy scan:
state is (accumulated cost, remaining target, stopped flag); a stopped scan
ignores all further trades ("the remainder of that trade and all subsequent
trades in the sequence are not consumed"). -/
def greedy_step (s : ℚ × Int × Bool) (t : TradeOperation) : ℚ × Int × Bool :=
  if s.2.2 then s
  else if t.quantity ≤ s.2.1 then
    (s.1 + (t.quantity : ℚ) * t.price, s.2.1 - t.quantity, false)
  else
    (s.1 + (s.2.1 : ℚ) * t.price, 0, true)

/-- Reference definition, following the spec's words: the cost accumulated
by walking the whole sequence with `greedy_step` starting from cost `0`,
remaining target `quantity`, not stopped. -/
def greedy_first_n (quantity : Int) (trades : List TradeOperation) : ℚ :=
  (trades.foldl greedy_step (0, quantity, false)).1

/-- One step of first-occurrence key collection. -/
def stepKey (ks : List String) (t : TradeOperation) : List String :=
  if t.underlying ∈ ks then ks else ks ++ [t.underlying]

/-- The distinct underlyings of the batch, in first-occurrence order — the
key order of the Python dict. -/
def firstKeys (l : List TradeOperation) : List String :=
  l.foldl stepKey []

/-- The ordered subsequence of trades of the batch carrying underlying `u`. -/
def groupOf (u : String) (l : List TradeOperation) : List TradeOperation :=
  l.filter (fun t => t.underlying = u)

/-- Closed form of the constructor's grouping. -/
def groupsOf (l : List TradeOperation) : List (String × List TradeOperation) :=
  (firstKeys l).map (fun u => (u, groupOf u l))

/-- Sample trade: buy one unit of Oil at 100. -/
def oilBuy : TradeOperation := ⟨Direction.BUY, 1, 100, "Oil"⟩

/-- Sample trade: sell five units of Oil at 115. -/
def oilSell : TradeOperation := ⟨Direction.SELL, 5, 115, "Oil"⟩

/-- Sample trade: sell four units of Gas at 110. -/
def gasSell : TradeOperation := ⟨Direction.SELL, 4, 110, "Gas"⟩

/-- Sample trade: buy two units of Gas at 120. -/
def gasBuy : TradeOperation := ⟨Direction.BUY, 2, 120, "Gas"⟩

end TradingPnl

namespace TradingPnl

/-! ### Helper lemmas about the first-N consumption scan -/

lemma first_n_units_cost_zero (l : List TradeOperation)
    (h : ∀ t ∈ l, 0 ≤ t.quantity) : first_n_units_cost 0 l = 0 := by
  induction l with
  | nil => rfl
  | cons t ts ih =>
    have ht : 0 ≤ t.quantity := h t (List.mem_cons_self t ts)
    have hmin : min (0 : Int) t.quantity = 0 := min_eq_left ht
    simp only [first_n_units_cost, hmin, sub_self]
    rw [ih (fun u hu => h u (List.mem_cons_of_mem t hu))]
    push_cast
    ring

lemma price_of_first_n_goods_eq_first_n_units_cost (n : Int)
    (l : List TradeOperation) (hn : 0 ≤ n) (h : ∀ t ∈ l, 0 ≤ t.quantity) :
    price_of_first_n_goods n l = first_n_units_cost n l := by
  induction l generalizing n with
  | nil => rfl
  | cons t ts ih =>
    have hts : ∀ u ∈ ts, 0 ≤ u.quantity := fun u hu => h u (List.mem_cons_of_mem t hu)
    by_cases hq : t.quantity ≤ n
    · have hmin : min n t.quantity = t.quantity := min_eq_right hq
      simp only [price_of_first_n_goods, first_n_units_cost, if_pos hq, hmin]
      rw [ih (n - t.quantity) (by omega) hts]
    · have hmin : min n t.quantity = n := min_eq_left (le_of_not_le hq)
      simp only [price_of_first_n_goods, first_n_units_cost, if_neg hq, hmin]
      rw [sub_self, first_n_units_cost_zero ts hts, add_zero]

lemma foldl_greedy_step_stopped (l : List TradeOperation) (a : ℚ) (r : Int) :
    (l.foldl greedy_step (a, r, true)).1 = a := by
  induction l generalizing a r with
  | nil => rfl
  | cons t ts ih => simpa [greedy_step] using ih a r

lemma foldl_greedy_step_eq (l : List TradeOperation) (a : ℚ) (r : Int) :
    (l.foldl greedy_step (a, r, false)).1 = a + price_of_first_n_goods r l := by
  induction l generalizing a r with
  | nil => simp [price_of_first_n_goods]
  | cons t ts ih =>
    by_cases hq : t.quantity ≤ r
    · simp only [List.foldl_cons, greedy_step, if_neg Bool.false_ne_true, if_pos hq]
      rw [ih, price_of_first_n_goods, if_pos hq, add_assoc]
    · simp only [List.foldl_cons, greedy_step, if_neg Bool.false_ne_true, if_neg hq]
      rw [foldl_greedy_step_stopped, price_of_first_n_goods, if_neg hq]

/-! ### The grouping performed by the constructor

`trades_by_underlying` is shown (in `trades_by_underlying_eq_groupsOf`
below) to equal its closed form `groupsOf`: the distinct underlyings in
first-occurrence order, each paired with the ordered subsequence of the
input trades carrying that underlying. -/

lemma mem_foldl_stepKey (l : List TradeOperation) (ks : List String) (u : String) :
    u ∈ l.foldl stepKey ks ↔ u ∈ ks ∨ ∃ t ∈ l, t.underlying = u := by
  induction l generalizing ks with
  | nil => simp
  | cons t ts ih =>
    rw [List.foldl_cons, ih]
    by_cases hm : t.underlying ∈ ks
    · simp only [stepKey, if_pos hm, List.mem_cons]
      constructor
      · rintro (hu | ⟨s, hs, rfl⟩)
        · exact Or.inl hu
        · exact Or.inr ⟨s, Or.inr hs, rfl⟩
      · rintro (hu | ⟨s, (rfl | hs), rfl⟩)
        · exact Or.inl hu
        · exact Or.inl hm
        · exact Or.inr ⟨s, hs, rfl⟩
    · rw [stepKey, if_neg hm]
      constructor
      · rintro (hu | ⟨s, hs, rfl⟩)
        · rcases List.mem_append.mp hu with h1 | h2
          · exact Or.inl h1
          · exact Or.inr ⟨t, List.mem_cons_self t ts, (List.mem_singleton.mp h2).symm⟩
        · exact Or.inr ⟨s, List.mem_cons_of_mem t hs, rfl⟩
      · rintro (hu | ⟨s, hs, rfl⟩)
        · exact Or.inl (List.mem_append.mpr (Or.inl hu))
        · rcases List.mem_cons.mp hs with rfl | hs2
          · exact Or.inl (List.mem_append.mpr (Or.inr (List.mem_singleton.mpr rfl)))
          · exact Or.inr ⟨s, hs2, rfl⟩

lemma mem_firstKeys (l : List TradeOperation) (u : String) :
    u ∈ firstKeys l ↔ ∃ t ∈ l, t.underlying = u := by
  rw [firstKeys, mem_foldl_stepKey]
  simp

lemma stepKey_nodup (ks : List String) (t : TradeOperation) (h : ks.Nodup) :
    (stepKey ks t).Nodup := by
  by_cases hm : t.underlying ∈ ks
  · simpa [stepKey, hm] using h
  · simp [stepKey, hm, List.nodup_append, h]

lemma foldl_stepKey_nodup (l : List TradeOperation) (ks : List String)
    (h : ks.Nodup) : (l.foldl stepKey ks).Nodup := by
  induction l generalizing ks with
  | nil => exact h
  | cons t ts ih => exact ih (stepKey ks t) (stepKey_nodup ks t h)

lemma firstKeys_nodup (l : List TradeOperation) : (firstKeys l).Nodup :=
  foldl_stepKey_nodup l [] List.nodup_nil

lemma firstKeys_append_singleton (l : List TradeOperation) (t : TradeOperation) :
    firstKeys (l ++ [t]) = stepKey (firstKeys l) t := by
  simp [firstKeys, List.foldl_append]

lemma groupOf_append_singleton (u : String) (l : List TradeOperation)
    (t : TradeOperation) :
    groupOf u (l ++ [t]) =
      groupOf u l ++ (if t.underlying = u then [t] else []) := by
  by_cases he : t.underlying = u
  · simp [groupOf, List.filter_append, he]
  · simp [groupOf, List.filter_append, he]

lemma groupOf_eq_nil (u : String) (l : List TradeOperation)
    (h : ∀ s ∈ l, s.underlying ≠ u) : groupOf u l = [] := by
  rw [groupOf, List.filter_eq_nil_iff]
  intro s hs
  simpa using h s hs

lemma groupsOf_map_fst (l : List TradeOperation) :
    (groupsOf l).map Prod.fst = firstKeys l := by
  simp [groupsOf, List.map_map, Function.comp_def]

lemma addTrade_groupsOf (l : List TradeOperation) (t : TradeOperation) :
    addTrade (groupsOf l) t = groupsOf (l ++ [t]) := by
  by_cases hm : t.underlying ∈ firstKeys l
  · rw [addTrade, groupsOf_map_fst, if_pos hm]
    simp only [groupsOf, firstKeys_append_singleton, stepKey, if_pos hm, List.map_map]
    apply List.map_congr_left
    intro u hu
    by_cases he : u = t.underlying
    · subst he
      simp [groupOf_append_singleton, Function.comp_def]
    · have hne : t.underlying ≠ u := fun h => he h.symm
      simp [groupOf_append_singleton, Function.comp_def, he, hne]
  · rw [addTrade, groupsOf_map_fst, if_neg hm]
    simp only [groupsOf, firstKeys_append_singleton, stepKey, if_neg hm, List.map_append]
    have hnone : ∀ s ∈ l, s.underlying ≠ t.underlying := by
      intro s hs hcontra
      exact hm ((mem_firstKeys l t.underlying).mpr ⟨s, hs, hcontra⟩)
    congr 1
    · apply List.map_congr_left
      intro u hu
      have hne : t.underlying ≠ u := by
        intro h
        exact hm (h ▸ hu)
      simp [groupOf_append_singleton, hne]
    · simp [groupOf_append_singleton, groupOf_eq_nil t.underlying l hnone]

lemma trades_by_underlying_eq_groupsOf (l : List TradeOperation) :
    trades_by_underlying l = groupsOf l := by
  induction l using List.reverseRecOn with
  | nil => rfl
  | append_singleton l t ih =>
    rw [trades_by_underlying, List.foldl_append, List.foldl_cons, List.foldl_nil,
      ← trades_by_underlying, ih]
    exact addTrade_groupsOf l t

/-! ### Total PNL as a sum over distinct underlyings -/

lemma foldl_add_underlying_pnl (m : List (String × List TradeOperation)) (a : ℚ) :
    m.foldl (fun result p => result + underlying_pnl p.2) a =
      a + (m.map (fun p => underlying_pnl p.2)).sum := by
  induction m generalizing a with
  | nil => simp
  | cons p ps ih =>
    rw [List.foldl_cons, ih, List.map_cons, List.sum_cons, add_assoc]

lemma pnl_eq_sum_firstKeys (l : List TradeOperation) :
    pnl l = ((firstKeys l).map (fun u => underlying_pnl (groupOf u l))).sum := by
  rw [pnl, trades_by_underlying_eq_groupsOf, foldl_add_underlying_pnl, zero_add,
    groupsOf, List.map_map]
  simp [Function.comp_def]

lemma sum_over_toFinset_of_nodup (ks : List String) (f : String → ℚ)
    (h : ks.Nodup) : ∑ u ∈ ks.toFinset, f u = (ks.map f).sum := by
  induction ks with
  | nil => simp
  | cons k ks ih =>
    rcases List.nodup_cons.mp h with ⟨hk, hks⟩
    rw [List.toFinset_cons, Finset.sum_insert (by simpa using hk),
      List.map_cons, List.sum_cons, ih hks]

lemma toFinset_firstKeys (l : List TradeOperation) :
    (firstKeys l).toFinset = (l.map (fun t => t.underlying)).toFinset := by
  ext u
  simp only [List.mem_toFinset, mem_firstKeys, List.mem_map]

lemma pnl_eq_finset_sum (l : List TradeOperation) :
    pnl l = ∑ u ∈ (l.map (fun t => t.underlying)).toFinset,
      underlying_pnl (groupOf u l) := by
  rw [pnl_eq_sum_firstKeys, ← toFinset_firstKeys,
    sum_over_toFinset_of_nodup (firstKeys l) _ (firstKeys_nodup l)]

lemma toFinset_eq_of_perm (l₁ l₂ : List TradeOperation) (h : l₁.Perm l₂) :
    (l₁.map (fun t => t.underlying)).toFinset =
      (l₂.map (fun t => t.underlying)).toFinset := by
  ext u
  simp only [List.mem_toFinset]
  exact (h.map (fun t => t.underlying)).mem_iff

/-! ### Claim theorems -/

/-- C1: for every trade group holding at least one BUY and at least one SELL
operation, with all quantities positive, the per-underlying PNL computed by
`underlying_pnl` equals sell proceeds minus buy cost, where the matched
quantity is the minimum of the total BUY quantity and the total SELL
quantity, the buy cost is the cost of the first matched-quantity units
consumed in original order from the BUY subsequence (`first_n_units_cost`),
and the sell proceeds are computed the same way from the SELL
subsequence. -/
theorem underlying_pnl_eq_fifo_matching (trades : List TradeOperation)
    (hpos : ∀ t ∈ trades, 0 < t.quantity)
    (hbuy : ∃ t ∈ trades, t.direction = Direction.BUY)
    (hsell : ∃ t ∈ trades, t.direction = Direction.SELL) :
    underlying_pnl trades =
      first_n_units_cost
        (min (((trades.filter (fun t => t.direction = Direction.BUY)).map (fun t => t.quantity)).sum)
          (((trades.filter (fun t => t.direction = Direction.SELL)).map (fun t => t.quantity)).sum))
        (trades.filter (fun t => t.direction = Direction.SELL)) -
      first_n_units_cost
        (min (((trades.filter (fun t => t.direction = Direction.BUY)).map (fun t => t.quantity)).sum)
          (((trades.filter (fun t => t.direction = Direction.SELL)).map (fun t => t.quantity)).sum))
        (trades.filter (fun t => t.direction = Direction.BUY)) := by
  obtain ⟨tb, htb, hdb⟩ := hbuy
  obtain ⟨ts0, hts0, hds⟩ := hsell
  have hbne : trades.filter (fun t => t.direction = Direction.BUY) ≠ [] := by
    intro hcontra
    have : tb ∈ trades.filter (fun t => t.direction = Direction.BUY) :=
      List.mem_filter.mpr ⟨htb, by simp [hdb]⟩
    rw [hcontra] at this
    exact List.not_mem_nil tb this
  have hsne : trades.filter (fun t => t.direction = Direction.SELL) ≠ [] := by
    intro hcontra
    have : ts0 ∈ trades.filter (fun t => t.direction = Direction.SELL) :=
      List.mem_filter.mpr ⟨hts0, by simp [hds]⟩
    rw [hcontra] at this
    exact List.not_mem_nil ts0 this
  have hposb : ∀ t ∈ trades.filter (fun t => t.direction = Direction.BUY), 0 ≤ t.quantity :=
    fun t ht => le_of_lt (hpos t (List.mem_filter.mp ht).1)
  have hposs : ∀ t ∈ trades.filter (fun t => t.direction = Direction.SELL), 0 ≤ t.quantity :=
    fun t ht => le_of_lt (hpos t (List.mem_filter.mp ht).1)
  have hq : (0 : Int) ≤
      min (((trades.filter (fun t => t.direction = Direction.BUY)).map (fun t => t.quantity)).sum)
        (((trades.filter (fun t => t.direction = Direction.SELL)).map (fun t => t.quantity)).sum) := by
    apply le_min
    · apply List.sum_nonneg
      intro x hx
      obtain ⟨t, ht, rfl⟩ := List.mem_map.mp hx
      exact hposb t ht
    · apply List.sum_nonneg
      intro x hx
      obtain ⟨t, ht, rfl⟩ := List.mem_map.mp hx
      exact hposs t ht
  rw [underlying_pnl]
  rw [if_neg (not_or.mpr ⟨hbne, hsne⟩)]
  simp only []
  rw [price_of_first_n_goods_eq_first_n_units_cost _ _ hq hposs,
    price_of_first_n_goods_eq_first_n_units_cost _ _ hq hposb]

/-- Witness for C1 at the batch of one Oil BUY and one Oil SELL. -/
theorem underlying_pnl_eq_fifo_matching_witness :
    (∀ t ∈ [oilBuy, oilSell], 0 < t.quantity) ∧
    underlying_pnl [oilBuy, oilSell] =
      first_n_units_cost
        (min ((([oilBuy, oilSell].filter (fun t => t.direction = Direction.BUY)).map (fun t => t.quantity)).sum)
          ((([oilBuy, oilSell].filter (fun t => t.direction = Direction.SELL)).map (fun t => t.quantity)).sum))
        ([oilBuy, oilSell].filter (fun t => t.direction = Direction.SELL)) -
      first_n_units_cost
        (min ((([oilBuy, oilSell].filter (fun t => t.direction = Direction.BUY)).map (fun t => t.quantity)).sum)
          ((([oilBuy, oilSell].filter (fun t => t.direction = Direction.SELL)).map (fun t => t.quantity)).sum))
        ([oilBuy, oilSell].filter (fun t => t.direction = Direction.BUY)) :=
  ⟨by decide,
    underlying_pnl_eq_fifo_matching [oilBuy, oilSell] (by decide) (by decide) (by decide)⟩

/-- C2: under the spec's precondition (non-negative target, positive trade
quantities, target at most the total available quantity),
`price_of_first_n_goods` equals the reference greedy first-N scan
`greedy_first_n` that walks the list in order, consumes whole trades while
the remaining target covers them, and on the first trade exceeding the
remaining target adds only `remaining * price` and consumes nothing
further. -/
theorem price_of_first_n_goods_eq_greedy (q : Int) (l : List TradeOperation)
    (hq : 0 ≤ q) (hpos : ∀ t ∈ l, 0 < t.quantity)
    (hle : q ≤ (l.map (fun t => t.quantity)).sum) :
    price_of_first_n_goods q l = greedy_first_n q l := by
  rw [greedy_first_n, foldl_greedy_step_eq, zero_add]

/-- Witness for C2 at target 2 over one Oil BUY and one Oil SELL. -/
theorem price_of_first_n_goods_eq_greedy_witness :
    (0 : Int) ≤ 2 ∧ (2 : Int) ≤ ([oilBuy, oilSell].map (fun t => t.quantity)).sum ∧
    price_of_first_n_goods 2 [oilBuy, oilSell] = greedy_first_n 2 [oilBuy, oilSell] :=
  ⟨by decide, by decide,
    price_of_first_n_goods_eq_greedy 2 [oilBuy, oilSell] (by decide) (by decide) (by decide)⟩

/-- C3: the total PNL of a batch is the sum, over the distinct underlyings
present in the input, of the per-underlying PNL of that underlying's trade
group; the right-hand side is a `Finset.sum`, which is invariant under the
order in which the underlyings are enumerated. -/
theorem pnl_additive_over_underlyings (l : List TradeOperation) :
    pnl l = ∑ u ∈ (l.map (fun t => t.underlying)).toFinset,
      underlying_pnl (l.filter (fun t => t.underlying = u)) :=
  pnl_eq_finset_sum l

/-- C4: two batches that are permutations of each other and agree on the
per-underlying subsequences (hence preserve the relative order of the
operations sharing each underlying) have the same total PNL. -/
theorem pnl_invariant_under_regrouping (l₁ l₂ : List TradeOperation)
    (hperm : l₁.Perm l₂)
    (horder : ∀ u : String,
      l₁.filter (fun t => t.underlying = u) = l₂.filter (fun t => t.underlying = u)) :
    pnl l₁ = pnl l₂ := by
  rw [pnl_eq_finset_sum, pnl_eq_finset_sum, toFinset_eq_of_perm l₁ l₂ hperm]
  apply Finset.sum_congr rfl
  intro u hu
  exact congrArg underlying_pnl (horder u)

/-- Witness for C4: moving the Oil SELL next to the Oil BUY across the Gas
trades leaves the total PNL unchanged. -/
theorem pnl_invariant_under_regrouping_witness :
    pnl [oilBuy, gasSell, gasBuy, oilSell] = pnl [oilBuy, oilSell, gasSell, gasBuy] := by
  apply pnl_invariant_under_regrouping
  · decide
  · intro u
    by_cases h1 : "Oil" = u
    · subst h1
      decide
    · by_cases h2 : "Gas" = u
      · subst h2
        decide
      · simp [oilBuy, oilSell, gasBuy, gasSell, List.filter, h1, h2]

/-- C5: a trade group whose operations are all BUY, or all SELL, has
per-underlying PNL exactly 0, whatever the quantities and prices. -/
theorem single_sided_pnl_zero (trades : List TradeOperation)
    (h : (∀ t ∈ trades, t.direction = Direction.BUY) ∨
         (∀ t ∈ trades, t.direction = Direction.SELL)) :
    underlying_pnl trades = 0 := by
  rw [underlying_pnl]
  rcases h with h | h
  · have hs : trades.filter (fun t => t.direction = Direction.SELL) = [] := by
      rw [List.filter_eq_nil_iff]
      intro t ht
      simp [h t ht]
    simp [hs]
  · have hb : trades.filter (fun t => t.direction = Direction.BUY) = [] := by
      rw [List.filter_eq_nil_iff]
      intro t ht
      simp [h t ht]
    simp [hb]

/-- Witness for C5 at an all-BUY two-trade group. -/
theorem single_sided_pnl_zero_witness :
    (∀ t ∈ [oilBuy, gasBuy], t.direction = Direction.BUY) ∧
    underlying_pnl [oilBuy, gasBuy] = 0 :=
  ⟨by decide, single_sided_pnl_zero [oilBuy, gasBuy] (Or.inl (by decide))⟩

/-- C6: constructing the engine on the empty batch yields the empty
grouping (total construction, no error path) and its pnl query returns
exactly 0. -/
theorem empty_batch_pnl_zero :
    trades_by_underlying ([] : List TradeOperation) = [] ∧
    pnl ([] : List TradeOperation) = 0 :=
  ⟨rfl, rfl⟩

/-- C7: on the literal batch Oil BUY 1@100; Gas SELL 4@110; Gas BUY 2@120;
Oil SELL 5@115, the pnl query returns exactly -5, with the Oil group
contributing 15 and the Gas group contributing -20. -/
theorem literal_batch_pnl :
    pnl [⟨Direction.BUY, 1, 100, "Oil"⟩, ⟨Direction.SELL, 4, 110, "Gas"⟩,
      ⟨Direction.BUY, 2, 120, "Gas"⟩, ⟨Direction.SELL, 5, 115, "Oil"⟩] = -5 ∧
    underlying_pnl [⟨Direction.BUY, 1, 100, "Oil"⟩, ⟨Direction.SELL, 5, 115, "Oil"⟩] = 15 ∧
    underlying_pnl [⟨Direction.SELL, 4, 110, "Gas"⟩, ⟨Direction.BUY, 2, 120, "Gas"⟩] = -20 := by
  refine ⟨?_, ?_, ?_⟩
  · simp +decide [pnl, trades_by_underlying, addTrade, underlying_pnl, price_of_first_n_goods]
    norm_num
  · simp +decide [underlying_pnl, price_of_first_n_goods]
    norm_num
  · simp +decide [underlying_pnl, price_of_first_n_goods]
    norm_num

/-- C8: the constructor partitions the batch into per-underlying groups:
the group keys are pairwise distinct, every input trade's underlying is
among the keys, each group is exactly the subsequence of input trades
carrying its key (so membership is governed by the key, groups are disjoint
and exhaustive), and each group is a sublist of the input, i.e. keeps the
input's relative order. -/
theorem constructor_groups_partition (l : List TradeOperation) :
    ((trades_by_underlying l).map Prod.fst).Nodup ∧
    (∀ t ∈ l, t.underlying ∈ (trades_by_underlying l).map Prod.fst) ∧
    (∀ p ∈ trades_by_underlying l, p.2 = l.filter (fun t => t.underlying = p.1)) ∧
    (∀ p ∈ trades_by_underlying l, p.2.Sublist l) := by
  rw [trades_by_underlying_eq_groupsOf, groupsOf_map_fst]
  refine ⟨firstKeys_nodup l, ?_, ?_, ?_⟩
  · intro t ht
    exact (mem_firstKeys l t.underlying).mpr ⟨t, ht, rfl⟩
  · intro p hp
    obtain ⟨u, hu, rfl⟩ := List.mem_map.mp hp
    rfl
  · intro p hp
    obtain ⟨u, hu, rfl⟩ := List.mem_map.mp hp
    exact List.filter_sublist l

/-- Witness for C8 at a two-underlying batch. -/
theorem constructor_groups_partition_witness :
    ((trades_by_underlying [oilBuy, gasSell, oilSell]).map Prod.fst).Nodup :=
  (constructor_groups_partition [oilBuy, gasSell, oilSell]).1

/-- C9: a `TradeOperation` is a pure value with no identity beyond its four
fields — two operations agreeing on all four fields are equal — and the
system never alters a stored trade: every trade found in any group built by
the constructor is an element of the input batch itself. (In this
embedding every operation is a pure function, so fields cannot be mutated
after construction.) -/
theorem trade_operation_pure_value :
    (∀ a b : TradeOperation, a.direction = b.direction → a.quantity = b.quantity →
      a.price = b.price → a.underlying = b.underlying → a = b) ∧
    (∀ l : List TradeOperation, ∀ p ∈ trades_by_underlying l, ∀ t ∈ p.2, t ∈ l) := by
  constructor
  · intro a b h1 h2 h3 h4
    cases a
    cases b
    simp_all
  · intro l p hp t ht
    rw [trades_by_underlying_eq_groupsOf] at hp
    obtain ⟨u, hu, rfl⟩ := List.mem_map.mp hp
    exact (List.mem_filter.mp ht).1

/-- Witness for C9: field-wise agreement identifies a literal record with
`oilBuy`. -/
theorem trade_operation_pure_value_witness :
    (⟨Direction.BUY, 1, 100, "Oil"⟩ : TradeOperation) = oilBuy :=
  trade_operation_pure_value.1 _ _ rfl rfl rfl rfl

/-- C10: `price_of_first_n_goods` is a total function (it is defined by
structural recursion, with no error path); when the target strictly exceeds
the total available quantity it consumes every trade whole and returns the
full cost of the list. -/
theorem price_of_first_n_goods_consumes_all (q : Int) (l : List TradeOperation)
    (hpos : ∀ t ∈ l, 0 < t.quantity)
    (h : (l.map (fun t => t.quantity)).sum < q) :
    price_of_first_n_goods q l = (l.map (fun t => (t.quantity : ℚ) * t.price)).sum := by
  induction l generalizing q with
  | nil => simp [price_of_first_n_goods]
  | cons t ts ih =>
    have hts : ∀ u ∈ ts, 0 < u.quantity := fun u hu => hpos u (List.mem_cons_of_mem t hu)
    have hsum : 0 ≤ (ts.map (fun u => u.quantity)).sum := by
      apply List.sum_nonneg
      intro x hx
      obtain ⟨u, hu, rfl⟩ := List.mem_map.mp hx
      exact le_of_lt (hts u hu)
    rw [List.map_cons, List.sum_cons] at h
    have hqt : t.quantity ≤ q := by omega
    rw [price_of_first_n_goods, if_pos hqt, ih (q - t.quantity) hts (by omega)]
    rw [List.map_cons, List.sum_cons]

/-- Witness for C10 at target 100 over a batch of total quantity 6. -/
theorem price_of_first_n_goods_consumes_all_witness :
    ([oilBuy, oilSell].map (fun t => t.quantity)).sum < 100 ∧
    price_of_first_n_goods 100 [oilBuy, oilSell] =
      ([oilBuy, oilSell].map (fun t => (t.quantity : ℚ) * t.price)).sum :=
  ⟨by decide, price_of_first_n_goods_consumes_all 100 [oilBuy, oilSell] (by decide) (by decide)⟩

end TradingPnl
